import Mathlib

/-!
Verification development for the particle-swarm memory pool and transport
subsystem (src/interface/swarm.cpp, src/bvals/bvals_swarm.cpp).

The pool (class Swarm) is embedded shallowly: Kokkos views become Lists,
Real becomes the exact rationals, int becomes Int, and each member function
of the source becomes a Lean function on the `Pool` record.  Fatal
conditions (PARTHENON_REQUIRE / thrown exceptions) are modelled by Option,
with `none` standing for the abort.
-/

/-- Per-block particle pool, mirroring the data members of class Swarm:
`nmax_pool_` (capacity), `mask_` (active bit per slot), `marked_for_removal_`,
`num_active_`, `max_active_index_`, `free_indices_` (std::list of free slot
indices), `blockIndex_` (destination tag per slot), and the registered
attribute columns (`Vectors_` for Real and int, in registration order,
labels carried alongside).  All per-slot arrays have length `cap` in
well-formed states. -/
structure Pool where
  cap : Nat
  mask : List Bool
  marked : List Bool
  numActive : Int
  maxActiveIndex : Int
  free : List Nat
  blockIndex : List Int
  realCols : List (String × List ℚ)
  intCols : List (String × List Int)

/-- Modelled from the spec: the destination tag's "local" sentinel
(`this_block_`, defined in swarm.hpp which is not among the sources).  The
spec calls it a local sentinel distinct from the nonnegative neighbor ids. -/
def thisBlockSentinel : Int := -1

/-- Active bit of slot `i` (false beyond the mask array). -/
def maskAt (p : Pool) (i : Nat) : Bool := p.mask.getD i false

/-- Marked-for-removal bit of slot `i`. -/
def markedAt (p : Pool) (i : Nat) : Bool := p.marked.getD i false

/-- Value of real attribute column `j` at slot `i` (columns are zero
initialised, so 0 is the default). -/
def realAt (p : Pool) (j i : Nat) : ℚ := ((p.realCols.getD j ("", [])).2).getD i 0

/-- Value of integer attribute column `j` at slot `i`. -/
def intAt (p : Pool) (j i : Nat) : Int := ((p.intCols.getD j ("", [])).2).getD i 0

/-- Label of real attribute column `j`. -/
def realLabelAt (p : Pool) (j : Nat) : String := (p.realCols.getD j ("", [])).1

/-- Label of integer attribute column `j`. -/
def intLabelAt (p : Pool) (j : Nat) : String := (p.intCols.getD j ("", [])).1

/-- The Swarm constructor (swarm.cpp lines 55-79): enrolls the three Real
variables "x", "y", "z" (each a zero-initialised column of length
`nmax_pool_`), sets `num_active_ = 0` and `max_active_index_ = 0`, clears
both masks and pushes every index 0..cap-1 onto the free list (in order,
push_back). -/
def mkSwarm (cap : Nat) : Pool where
  cap := cap
  mask := List.replicate cap false
  marked := List.replicate cap false
  numActive := 0
  maxActiveIndex := 0
  free := List.range cap
  blockIndex := List.replicate cap 0
  realCols := [("x", List.replicate cap 0), ("y", List.replicate cap 0),
               ("z", List.replicate cap 0)]
  intCols := []

/-- The two supported attribute types (Metadata::Integer, Metadata::Real).
Swarm::Add also aborts on any other Metadata type; only the two supported
ones are representable here. -/
inductive VarType where
  | integer : VarType
  | real : VarType
deriving DecidableEq

/-- Swarm::Add (swarm.cpp lines 102-120): registering an attribute fails
(throws) if the label is already present in either the int map or the Real
map; otherwise the new zero-initialised column of length `cap` is appended
to the vector of its type. -/
def addVar (p : Pool) (label : String) (ty : VarType) : Option Pool :=
  if (p.intCols.map Prod.fst).contains label
      || (p.realCols.map Prod.fst).contains label then
    none
  else
    match ty with
    | .integer => some { p with intCols := p.intCols ++ [(label, List.replicate p.cap 0)] }
    | .real => some { p with realCols := p.realCols ++ [(label, List.replicate p.cap 0)] }

/-- The mutation body of Swarm::setPoolMax (swarm.cpp lines 177-239) for a
strictly larger capacity `n`: pushes the new indices cap..n-1 onto the back
of the free list, extends the mask with false, the marked array with false,
`blockIndex_` with the zero-initialised default, and every attribute column
by zero-initialised entries, copying the old `cap` entries in place.
If `n ≤ cap` nothing happens (the guarded caller never reaches this case). -/
def extendPool (p : Pool) (n : Nat) : Pool :=
  if n ≤ p.cap then p
  else
    { p with
      cap := n
      mask := p.mask ++ List.replicate (n - p.cap) false
      marked := p.marked ++ List.replicate (n - p.cap) false
      free := p.free ++ List.range' p.cap (n - p.cap)
      blockIndex := p.blockIndex ++ List.replicate (n - p.cap) 0
      realCols := p.realCols.map (fun c => (c.1, c.2 ++ List.replicate (n - p.cap) 0))
      intCols := p.intCols.map (fun c => (c.1, c.2 ++ List.replicate (n - p.cap) 0)) }

/-- Swarm::setPoolMax: PARTHENON_REQUIRE(nmax_pool > nmax_pool_) aborts
(`none`) when the requested capacity is not strictly larger; otherwise the
pool is extended as in `extendPool`. -/
def setPoolMax (p : Pool) (n : Nat) : Option Pool :=
  if n ≤ p.cap then none else some (extendPool p n)

/- ### Small list lemmas used throughout -/

theorem getD_append_replicate {α : Type} (l : List α) (m i : Nat) (d : α) :
    (l ++ List.replicate m d).getD i d = l.getD i d := by
  induction l generalizing i with
  | nil =>
    simp only [List.nil_append]
    induction m generalizing i with
    | zero => rfl
    | succ m ih =>
      cases i with
      | zero => rfl
      | succ i => simp
  | cons a l ih =>
    cases i with
    | zero => rfl
    | succ i => simpa using ih i

theorem getD_set_ne {α : Type} (l : List α) (i j : Nat) (a d : α) (h : i ≠ j) :
    (l.set i a).getD j d = l.getD j d := by
  induction l generalizing i j with
  | nil => rfl
  | cons b l ih =>
    cases i with
    | zero =>
      cases j with
      | zero => exact absurd rfl h
      | succ j => rfl
    | succ i =>
      cases j with
      | zero => rfl
      | succ j => simpa using ih i j (by omega)

theorem getD_set_self {α : Type} (l : List α) (i : Nat) (a d : α) (h : i < l.length) :
    (l.set i a).getD i d = a := by
  induction l generalizing i with
  | nil => simp at h
  | cons b l ih =>
    cases i with
    | zero => rfl
    | succ i => simpa using ih i (by simpa using h)

/- ### Claim C10 -/

/-- Claim C10: a freshly constructed pool already has the Real attributes
"x", "y", "z" registered, so `Add` with any of those names fails under
either supported type, and the pool starts with `num_active = 0`, no slot
marked, and every capacity index on the free list. -/
theorem mkSwarm_reserves_xyz (cap : Nat) :
    (mkSwarm cap).numActive = 0
    ∧ (mkSwarm cap).marked = List.replicate cap false
    ∧ (mkSwarm cap).free = List.range cap
    ∧ addVar (mkSwarm cap) "x" .real = none
    ∧ addVar (mkSwarm cap) "x" .integer = none
    ∧ addVar (mkSwarm cap) "y" .real = none
    ∧ addVar (mkSwarm cap) "y" .integer = none
    ∧ addVar (mkSwarm cap) "z" .real = none
    ∧ addVar (mkSwarm cap) "z" .integer = none := by
  refine ⟨rfl, rfl, rfl, ?_, ?_, ?_, ?_, ?_, ?_⟩ <;>
    simp [addVar, mkSwarm]

/- ### Claim C3 -/

/-- Claim C3 fails on the code: the constructor (swarm.cpp line 66) sets
`max_active_index_ = 0` although no slot is active, so the invariant
"max_active_index = highest active index, or -1 when none" is violated in
the very first reachable state.  Here the freshly built capacity-1 pool has
no active slot yet `maxActiveIndex = 0 ≠ -1`. -/
theorem mkSwarm_max_active_index_bug :
    (mkSwarm 1).mask = [false]
    ∧ (mkSwarm 1).numActive = 0
    ∧ (mkSwarm 1).maxActiveIndex = 0
    ∧ (mkSwarm 1).maxActiveIndex ≠ -1 := by
  exact ⟨rfl, rfl, rfl, by decide⟩

/- ### Claim C6 -/

/-- Claim C6: `SetCapacity(newCap)` with `newCap ≤ cap` fails fatally (the
PARTHENON_REQUIRE aborts before any mutation, leaving the pool as it was);
with `newCap > cap` it extends storage so that every existing slot keeps
its mask, marked bit, destination tag and attribute values at the same
index (labels preserved as well), and appends exactly the indices
cap..newCap-1, in order, to the back of the free list. -/
theorem setPoolMax_spec (p : Pool) (n : Nat) :
    (n ≤ p.cap → setPoolMax p n = none)
    ∧ (p.cap < n →
        setPoolMax p n = some (extendPool p n)
        ∧ (extendPool p n).cap = n
        ∧ (extendPool p n).free = p.free ++ List.range' p.cap (n - p.cap)
        ∧ (extendPool p n).numActive = p.numActive
        ∧ (extendPool p n).maxActiveIndex = p.maxActiveIndex
        ∧ (∀ i, maskAt (extendPool p n) i = maskAt p i)
        ∧ (∀ i, markedAt (extendPool p n) i = markedAt p i)
        ∧ (∀ j, realLabelAt (extendPool p n) j = realLabelAt p j)
        ∧ (∀ j, intLabelAt (extendPool p n) j = intLabelAt p j)
        ∧ (∀ j i, realAt (extendPool p n) j i = realAt p j i)
        ∧ (∀ j i, intAt (extendPool p n) j i = intAt p j i)) := by
  constructor
  · intro h
    simp [setPoolMax, h]
  · intro h
    have hn : ¬ n ≤ p.cap := by omega
    refine ⟨by simp [setPoolMax, hn], ?_, ?_, ?_, ?_, ?_, ?_, ?_, ?_, ?_, ?_⟩ <;>
      simp only [extendPool, if_neg hn]
    · intro i
      exact getD_append_replicate p.mask _ i false
    · intro i
      exact getD_append_replicate p.marked _ i false
    · intro j
      unfold realLabelAt
      induction p.realCols generalizing j with
      | nil => rfl
      | cons c l ih =>
        cases j with
        | zero => rfl
        | succ j => simpa using ih j
    · intro j
      unfold intLabelAt
      induction p.intCols generalizing j with
      | nil => rfl
      | cons c l ih =>
        cases j with
        | zero => rfl
        | succ j => simpa using ih j
    · intro j i
      unfold realAt
      induction p.realCols generalizing j with
      | nil => rfl
      | cons c l ih =>
        cases j with
        | zero => simpa using getD_append_replicate c.2 _ i 0
        | succ j => simpa using ih j
    · intro j i
      unfold intAt
      induction p.intCols generalizing j with
      | nil => rfl
      | cons c l ih =>
        cases j with
        | zero => simpa using getD_append_replicate c.2 _ i 0
        | succ j => simpa using ih j

/-- Witness for C6: both branches evaluated at the capacity-2 pool. -/
theorem setPoolMax_spec_witness :
    setPoolMax (mkSwarm 2) 2 = none
    ∧ setPoolMax (mkSwarm 2) 3 = some (extendPool (mkSwarm 2) 3)
    ∧ (extendPool (mkSwarm 2) 3).free = [0, 1] ++ List.range' 2 1 := by
  refine ⟨(setPoolMax_spec (mkSwarm 2) 2).1 (by decide), ?_, ?_⟩
  · exact ((setPoolMax_spec (mkSwarm 2) 3).2 (by decide)).1
  · exact ((setPoolMax_spec (mkSwarm 2) 3).2 (by decide)).2.2.1


/- ### Pool growth and AddEmptyParticles (swarm.cpp lines 241-287) -/

/-- Modelled from the spec: Swarm::increasePoolMax is declared in swarm.hpp,
which is not among the sources; the spec fixes the growth policy as
capacity doubling ("repeated doubling until sufficient"), performed through
the setPoolMax extension path. -/
def increasePoolMax (p : Pool) : Pool := extendPool p (2 * p.cap)

/-- The `while (free_indices_.size() < num_to_add) increasePoolMax();` loop
of AddEmptyParticles.  The loop is given `k` units of fuel: every doubling
adds `cap ≥ 1` free slots, so `k` iterations always suffice when `cap > 0`
(proved below); when `cap = 0` the C++ loop never terminates and the model
simply stops. -/
def growLoop (k : Nat) : Nat → Pool → Pool
  | 0, p => p
  | fuel + 1, p =>
    if p.free.length < k ∧ 0 < p.cap then growLoop k fuel (increasePoolMax p)
    else p

/-- Pool growth until the free list holds at least `k` entries. -/
def growPool (p : Pool) (k : Nat) : Pool := growLoop k k p

/-- Swarm::AddEmptyParticles: for `num_to_add ≤ 0` return empty results and
leave the pool alone.  Otherwise grow the pool until the free list has
`num_to_add` entries, then pop the first `num_to_add` free indices
(repeated `erase(begin)`), set their active bits, set their destination
tags to the local sentinel, raise `max_active_index_` to the maximum of the
allocated indices, and add `num_to_add` to `num_active_`.  Returns the new
pool, the allocated index list, and the new-particle mask (false everywhere
except the allocated indices). -/
def addEmptyParticles (p : Pool) (k : Int) : Pool × List Nat × List Bool :=
  if k ≤ 0 then (p, [], [])
  else
    let q := growPool p k.toNat
    let idxs := q.free.take k.toNat
    ({ q with
        mask := idxs.foldl (fun m i => m.set i true) q.mask
        blockIndex := idxs.foldl (fun b i => b.set i thisBlockSentinel) q.blockIndex
        maxActiveIndex := idxs.foldl (fun m i => max m (i : Int)) q.maxActiveIndex
        free := q.free.drop k.toNat
        numActive := q.numActive + k },
     idxs,
     idxs.foldl (fun m i => m.set i true) (List.replicate q.cap false))

/- ### Growth-loop lemmas -/

theorem extendPool_fields (p : Pool) (n : Nat) (h : p.cap < n) :
    (extendPool p n).cap = n
    ∧ (extendPool p n).numActive = p.numActive
    ∧ (extendPool p n).maxActiveIndex = p.maxActiveIndex
    ∧ (extendPool p n).mask = p.mask ++ List.replicate (n - p.cap) false
    ∧ (extendPool p n).free = p.free ++ List.range' p.cap (n - p.cap) := by
  unfold extendPool
  rw [if_neg (by omega)]
  exact ⟨rfl, rfl, rfl, rfl, rfl⟩

/-- Invariant of the doubling loop, relative to the starting pool. -/
def GrowInv (p0 q : Pool) : Prop :=
  q.numActive = p0.numActive
  ∧ q.maxActiveIndex = p0.maxActiveIndex
  ∧ (∀ i, maskAt q i = maskAt p0 i)
  ∧ q.mask.length = q.cap
  ∧ (∀ j ∈ q.free, j < q.cap)
  ∧ 0 < q.cap
  ∧ (∃ e : Nat, q.cap = 2 ^ e * p0.cap)

theorem growInv_increase (p0 q : Pool) (h : GrowInv p0 q) :
    GrowInv p0 (increasePoolMax q) := by
  obtain ⟨h1, h2, h3, h4, h5, h6, ⟨e, he⟩⟩ := h
  have hc : q.cap < 2 * q.cap := by omega
  obtain ⟨f1, f2, f3, f4, f5⟩ := extendPool_fields q (2 * q.cap) hc
  unfold increasePoolMax
  refine ⟨f2.trans h1, f3.trans h2, ?_, ?_, ?_, ?_, ?_⟩
  · intro i
    unfold maskAt
    rw [f4, getD_append_replicate]
    exact h3 i
  · rw [f4, f1, List.length_append, List.length_replicate, h4]
    omega
  · intro j hj
    rw [f5] at hj
    rw [f1]
    rcases List.mem_append.mp hj with hj | hj
    · have := h5 j hj
      omega
    · have := List.mem_range'.mp hj
      omega
  · rw [f1]
    omega
  · refine ⟨e + 1, ?_⟩
    rw [f1, pow_succ, he]
    ring

theorem growLoop_inv (p0 : Pool) (k : Nat) :
    ∀ fuel q, GrowInv p0 q → GrowInv p0 (growLoop k fuel q) := by
  intro fuel
  induction fuel with
  | zero => intro q h; exact h
  | succ fuel ih =>
    intro q h
    unfold growLoop
    split
    · exact ih _ (growInv_increase p0 q h)
    · exact h

theorem growLoop_free_length (k : Nat) :
    ∀ fuel q, k - q.free.length ≤ fuel → 0 < q.cap →
      k ≤ (growLoop k fuel q).free.length := by
  intro fuel
  induction fuel with
  | zero =>
    intro q hm _
    unfold growLoop
    omega
  | succ fuel ih =>
    intro q hm hc
    unfold growLoop
    by_cases h : q.free.length < k ∧ 0 < q.cap
    · rw [if_pos h]
      obtain ⟨hlt, hpos⟩ := h
      have hc2 : q.cap < 2 * q.cap := by omega
      obtain ⟨f1, _, _, _, f5⟩ := extendPool_fields q (2 * q.cap) hc2
      have hlen : (increasePoolMax q).free.length = q.free.length + q.cap := by
        unfold increasePoolMax
        rw [f5, List.length_append, List.length_range']
        omega
      have hcap : 0 < (increasePoolMax q).cap := by
        unfold increasePoolMax
        rw [f1]
        omega
      exact ih _ (by omega) hcap
    · rw [if_neg h]
      omega

theorem growPool_noop (p : Pool) (k : Nat) (h : k ≤ p.free.length) :
    growPool p k = p := by
  unfold growPool
  cases k with
  | zero => rfl
  | succ k =>
    unfold growLoop
    rw [if_neg (by omega : ¬ (p.free.length < k + 1 ∧ 0 < p.cap))]

/- ### Foldl lemmas for the allocation phase -/

theorem foldl_set_getD (idxs : List Nat) :
    ∀ (m : List Bool) i, (∀ j ∈ idxs, j < m.length) →
      (idxs.foldl (fun m i => m.set i true) m).getD i false
        = (m.getD i false || decide (i ∈ idxs)) := by
  induction idxs with
  | nil => intro m i _; simp
  | cons a t ih =>
    intro m i hb
    have hlen : ∀ j ∈ t, j < (m.set a true).length := by
      intro j hj
      simpa using hb j (List.mem_cons_of_mem a hj)
    by_cases hia : i = a
    · subst hia
      rw [List.foldl_cons, ih (m.set i true) i hlen,
          getD_set_self m i true false (hb i (List.mem_cons_self i t))]
      simp
    · rw [List.foldl_cons, ih (m.set a true) i hlen,
          getD_set_ne m a i true false (fun h => hia h.symm)]
      simp [List.mem_cons, hia]

theorem foldl_max_le (idxs : List Nat) :
    ∀ b : Int, b ≤ idxs.foldl (fun m i => max m (i : Int)) b := by
  induction idxs with
  | nil => intro b; simp
  | cons a t ih =>
    intro b
    exact le_trans (le_max_left b a) (ih (max b a))

/- ### Claim C4 -/

/-- Claim C4: for `k > 0`, AddEmptyParticles(k) adds exactly `k` to
`num_active`, never decreases `max_active_index`, grows the pool by
repeated doubling exactly when the free list is short (no growth
otherwise, and afterwards the free list holds at least `k` entries),
returns `k` valid slot indices and sets exactly those slots' active bits;
for `k ≤ 0` it is a no-op returning empty results.  Hypotheses: positive
capacity (the C++ growth loop diverges at capacity 0), mask length equal
to capacity, and in-range free indices. -/
theorem addEmptyParticles_spec (p : Pool) (k : Int)
    (hcap : 0 < p.cap)
    (hml : p.mask.length = p.cap)
    (hfree : ∀ j ∈ p.free, j < p.cap) :
    (k ≤ 0 → addEmptyParticles p k = (p, [], []))
    ∧ (0 < k →
        (addEmptyParticles p k).1.numActive = p.numActive + k
        ∧ p.maxActiveIndex ≤ (addEmptyParticles p k).1.maxActiveIndex
        ∧ (∃ e : Nat, (growPool p k.toNat).cap = 2 ^ e * p.cap)
        ∧ (k.toNat ≤ p.free.length → growPool p k.toNat = p)
        ∧ k.toNat ≤ (growPool p k.toNat).free.length
        ∧ (addEmptyParticles p k).2.1.length = k.toNat
        ∧ (∀ i ∈ (addEmptyParticles p k).2.1, i < (addEmptyParticles p k).1.cap)
        ∧ (∀ i, maskAt (addEmptyParticles p k).1 i
            = (maskAt p i || decide (i ∈ (addEmptyParticles p k).2.1)))) := by
  constructor
  · intro h
    simp [addEmptyParticles, h]
  · intro hk
    have hk' : ¬ k ≤ 0 := by omega
    have hinv : GrowInv p (growPool p k.toNat) :=
      growLoop_inv p k.toNat k.toNat p
        ⟨rfl, rfl, fun _ => rfl, hml, hfree, hcap, ⟨0, by simp⟩⟩
    obtain ⟨h1, h2, h3, h4, h5, h6, h7⟩ := hinv
    have hflen : k.toNat ≤ (growPool p k.toNat).free.length :=
      growLoop_free_length k.toNat k.toNat p (by omega) hcap
    have htake : ∀ j ∈ (growPool p k.toNat).free.take k.toNat,
        j < (growPool p k.toNat).cap :=
      fun j hj => h5 j (List.take_subset _ _ hj)
    refine ⟨?_, ?_, h7, growPool_noop p k.toNat, hflen, ?_, ?_, ?_⟩
    · simp only [addEmptyParticles, if_neg hk']
      rw [h1]
    · simp only [addEmptyParticles, if_neg hk']
      rw [← h2]
      exact foldl_max_le _ _
    · simp only [addEmptyParticles, if_neg hk']
      rw [List.length_take]
      omega
    · intro i hi
      simp only [addEmptyParticles, if_neg hk'] at hi ⊢
      exact htake i hi
    · intro i
      simp only [maskAt] at h3
      simp only [addEmptyParticles, if_neg hk', maskAt]
      rw [foldl_set_getD _ _ i (fun j hj => by rw [h4]; exact htake j hj)]
      rw [h3 i]

/-- Witness for C4: a capacity-1 pool asked for two slots grows by one
doubling and allocates slots 0 and 1; a nonpositive request is a no-op. -/
theorem addEmptyParticles_spec_witness :
    (addEmptyParticles (mkSwarm 1) 2).1.numActive = (mkSwarm 1).numActive + 2
    ∧ (addEmptyParticles (mkSwarm 1) 2).2.1.length = (2 : Int).toNat
    ∧ addEmptyParticles (mkSwarm 1) (-1) = (mkSwarm 1, [], []) := by
  have hfr : ∀ j ∈ (mkSwarm 1).free, j < (mkSwarm 1).cap := by
    intro j hj
    simp [mkSwarm] at hj ⊢
    omega
  have h := addEmptyParticles_spec (mkSwarm 1) 2 (by decide) (by decide) hfr
  have h2 := addEmptyParticles_spec (mkSwarm 1) (-1) (by decide) (by decide) hfr
  exact ⟨(h.2 (by decide)).1, (h.2 (by decide)).2.2.2.2.2.1, h2.1 (by decide)⟩

/- ### RemoveMarkedParticles (swarm.cpp lines 292-314) -/

/-- Modelled from the spec: SwarmDeviceContext::MarkParticleForRemoval lives
in swarm_device_context.hpp, which is not among the sources; the spec
describes logical deletion as setting the per-slot marked-for-removal bit. -/
def markForRemoval (p : Pool) (i : Nat) : Pool :=
  { p with marked := p.marked.set i true }

/-- One iteration of the backward sweep of Swarm::RemoveMarkedParticles at
slot n: when the slot is both active and marked, clear the active bit, push
n onto the front of the free list, decrement `num_active_`, decrement
`max_active_index_` exactly when n equals its current value, and clear the
marked bit. -/
def rmStep (p : Pool) (n : Nat) : Pool :=
  if maskAt p n then
    if markedAt p n then
      { p with
        mask := p.mask.set n false
        free := n :: p.free
        numActive := p.numActive - 1
        maxActiveIndex := if (n : Int) = p.maxActiveIndex then p.maxActiveIndex - 1
                          else p.maxActiveIndex
        marked := p.marked.set n false }
    else p
  else p

/-- The descending index sequence max_active_index, ..., 1, 0 visited by the
sweep; the loop bound is read once at loop entry, and the loop body is
skipped entirely when `max_active_index` is negative. -/
def descRange (M : Int) : List Nat :=
  if M < 0 then [] else (List.range (M.toNat + 1)).reverse

/-- Swarm::RemoveMarkedParticles: sweep the slots from `max_active_index_`
down to 0, applying `rmStep` at each. -/
def removeMarked (p : Pool) : Pool :=
  (descRange p.maxActiveIndex).foldl rmStep p

/- ### Claim C1 -/

/-- A reachable pool state on which the sweep leaves `max_active_index`
wrong: make a capacity-2 pool, allocate both slots, mark and sweep slot 0,
then mark and sweep slot 1. -/
def c1FailingPool : Pool :=
  removeMarked (markForRemoval
    (removeMarked (markForRemoval (addEmptyParticles (mkSwarm 2) 2).1 0)) 1)

/-- Claim C1 fails on the code: after the final RemoveMarkedParticles in the
reachable run above no slot is active, yet `max_active_index` is 0, not -1
as both the claim and the comment above the function (swarm.cpp lines
289-291) demand.  The sweep only decrements `max_active_index_` when the
removed index equals its current value, so it cannot step over slots that
are already inactive. -/
theorem removeMarked_max_bug :
    c1FailingPool.mask = [false, false]
    ∧ c1FailingPool.marked = [false, false]
    ∧ c1FailingPool.numActive = 0
    ∧ c1FailingPool.maxActiveIndex = 0
    ∧ c1FailingPool.maxActiveIndex ≠ -1 := by
  decide

/- ### Defrag (swarm.cpp lines 316-396) -/

/-- The inner `while (mask_h(index) == false) index--;` scan of Defrag:
the highest index ≤ the start with the active bit set (`none` when no such
index exists; there the C++ loop would fall off the front of the array). -/
def scanDown (mask : List Bool) : Nat → Option Nat
  | 0 => if mask.getD 0 false then some 0 else none
  | i + 1 => if mask.getD (i + 1) false then some (i + 1) else scanDown mask i

/-- The selection loop of Defrag (swarm.cpp lines 336-353): up to `fuel =
num_to_move` times, scan down from `index` for the next active slot `f`;
stop when `f < num_active_` (no benefit remains); otherwise pop the front
of the free list as the relocation target, record the move and push `f`
onto the back of `new_free_indices`.  Returns the move list (the set
entries of `from_to_indices`), the remaining free list and the new free
indices.  The dead-end branches (`index < 0`, no active slot found, empty
free list) correspond to out-of-bounds accesses in the C++ and simply stop
the loop in the model; under the well-formedness hypotheses of the theorems
below they are never reached. -/
def selectMoves (mask : List Bool) (numActive : Int) :
    Nat → Int → List Nat → List (Nat × Nat) × List Nat × List Nat
  | 0, _, free => ([], free, [])
  | fuel + 1, index, free =>
    if index < 0 then ([], free, [])
    else
      match scanDown mask index.toNat with
      | none => ([], free, [])
      | some f =>
        if (f : Int) < numActive then ([], free, [])
        else
          match free with
          | [] => ([], free, [])
          | t :: rest =>
            ((f, t) :: (selectMoves mask numActive fuel ((f : Int) - 1) rest).1,
             (selectMoves mask numActive fuel ((f : Int) - 1) rest).2.1,
             f :: (selectMoves mask numActive fuel ((f : Int) - 1) rest).2.2)

/-- One entry of the `from_to_indices` map applied to the pool, as the two
parallel kernels of Defrag do for each n with `from_to_indices(n) ≥ 0`:
`mask(to) = mask(n); mask(n) = false;` and, for every Real and int column,
`v(i, to) = v(i, n)`.  The targets and sources of distinct entries are
pairwise disjoint in well-formed states, so the kernels' parallel
application coincides with this sequential one. -/
def moveSlot (p : Pool) (f t : Nat) : Pool :=
  { p with
    mask := (p.mask.set t (p.mask.getD f false)).set f false
    realCols := p.realCols.map (fun c => (c.1, c.2.set t (c.2.getD f 0)))
    intCols := p.intCols.map (fun c => (c.1, c.2.set t (c.2.getD f 0))) }

/-- Application of the whole `from_to_indices` map. -/
def applyMoves (p : Pool) (ms : List (Nat × Nat)) : Pool :=
  ms.foldl (fun q m => moveSlot q m.1 m.2) p

/-- Insertion into a sorted list, used to model std::list::sort / merge. -/
def insertSorted (x : Nat) : List Nat → List Nat
  | [] => [x]
  | y :: l => if x ≤ y then x :: y :: l else y :: insertSorted x l

/-- Sorting of the free list: `free_indices_.sort(); new_free_indices.sort();
free_indices_.merge(new_free_indices)` produces the sorted arrangement of
the combined elements, which is what sorting the concatenation produces. -/
def sortNat (l : List Nat) : List Nat := l.foldr insertSorted []

/-- The number of loop iterations of the Defrag selection loop:
`num_to_move = min(num_free, num_active_)` with
`num_free = (max_active_index_ + 1) - num_active_`. -/
def defragFuel (p : Pool) : Nat :=
  (min (p.maxActiveIndex + 1 - p.numActive) p.numActive).toNat

/-- The moves selected by Defrag on pool `p` (the set entries of its
`from_to_indices` map). -/
def defragMoves (p : Pool) : List (Nat × Nat) :=
  (selectMoves p.mask p.numActive (defragFuel p) p.maxActiveIndex p.free).1

/-- Swarm::Defrag: no-op when `num_active_ == 0`; otherwise select the moves,
apply them to the mask and to every attribute column, rebuild the free list
as the sorted merge of the remaining free indices and the vacated source
indices, and set `max_active_index_ = num_active_ - 1`. -/
def defrag (p : Pool) : Pool :=
  if p.numActive = 0 then p
  else
    { applyMoves p (defragMoves p) with
      free := sortNat
        ((selectMoves p.mask p.numActive (defragFuel p) p.maxActiveIndex p.free).2.1
          ++ (selectMoves p.mask p.numActive (defragFuel p) p.maxActiveIndex p.free).2.2)
      maxActiveIndex := p.numActive - 1 }

/-- Attribute-value tuple of slot `i`: all Real attribute values in
registration order paired with all int attribute values in registration
order. -/
def tupleAt (p : Pool) (i : Nat) : List ℚ × List Int :=
  (p.realCols.map (fun c => c.2.getD i 0), p.intCols.map (fun c => c.2.getD i 0))

/-- The multiset of attribute-value tuples over the active slots. -/
def activeTuples (p : Pool) : Multiset (List ℚ × List Int) :=
  (((List.range p.cap).filter (fun i => p.mask.getD i false)).map (tupleAt p) : List _)

/-- Occurrence count of a given tuple among the active slots. -/
def tupCount (p : Pool) (v : List ℚ × List Int) : Nat :=
  (List.range p.cap).countP (fun i => p.mask.getD i false && decide (tupleAt p i = v))

/- ### Selection-loop lemmas -/

theorem scanDown_spec (mask : List Bool) :
    ∀ i f, scanDown mask i = some f → f ≤ i ∧ mask.getD f false = true := by
  intro i
  induction i with
  | zero =>
    intro f h
    unfold scanDown at h
    by_cases hc : mask.getD 0 false
    · rw [if_pos hc] at h
      cases h
      exact ⟨Nat.le_refl 0, hc⟩
    · rw [if_neg hc] at h
      cases h
  | succ i ih =>
    intro f h
    unfold scanDown at h
    by_cases hc : mask.getD (i + 1) false
    · rw [if_pos hc] at h
      cases h
      exact ⟨Nat.le_refl _, hc⟩
    · rw [if_neg hc] at h
      obtain ⟨h1, h2⟩ := ih f h
      exact ⟨Nat.le_succ_of_le h1, h2⟩

theorem selectMoves_spec (mask : List Bool) (na : Int) :
    ∀ fuel (index : Int) (free : List Nat),
      (∀ m ∈ (selectMoves mask na fuel index free).1,
          mask.getD m.1 false = true ∧ (m.1 : Int) ≤ index ∧ na ≤ (m.1 : Int))
      ∧ ((selectMoves mask na fuel index free).1.map Prod.fst).Nodup
      ∧ ((selectMoves mask na fuel index free).1.map Prod.snd)
          = free.take (selectMoves mask na fuel index free).1.length := by
  intro fuel
  induction fuel with
  | zero =>
    intro index free
    refine ⟨?_, ?_, ?_⟩ <;> simp [selectMoves]
  | succ fuel ih =>
    intro index free
    unfold selectMoves
    split
    · simp
    next h0 =>
    split
    · simp
    next f hscan =>
    obtain ⟨hfle, hfmask⟩ := scanDown_spec mask index.toNat f hscan
    split
    · simp
    next hbreak =>
    split
    · simp
    next t rest =>
    obtain ⟨ih1, ih2, ih3⟩ := ih ((f : Int) - 1) rest
    refine ⟨?_, ?_, ?_⟩
    · intro m hm
      rcases List.mem_cons.mp hm with rfl | hm
      · exact ⟨hfmask, by omega, by omega⟩
      · obtain ⟨hm1, hm2, hm3⟩ := ih1 m hm
        exact ⟨hm1, by omega, hm3⟩
    · rw [List.map_cons]
      refine List.nodup_cons.mpr ⟨?_, ih2⟩
      intro hmem
      obtain ⟨m, hm, hEq⟩ := List.mem_map.mp hmem
      obtain ⟨_, hle, _⟩ := ih1 m hm
      omega
    · rw [List.map_cons, List.length_cons, List.take_succ_cons, ih3]

/- ### Counting machinery for the Defrag permutation argument -/

theorem countP_congr_mem {α : Type} (l : List α) (P Q : α → Bool)
    (h : ∀ x ∈ l, P x = Q x) : l.countP P = l.countP Q := by
  induction l with
  | nil => rfl
  | cons a l ih =>
    rw [List.countP_cons, List.countP_cons, h a (List.mem_cons_self a l),
        ih (fun x hx => h x (List.mem_cons_of_mem a hx))]

theorem getD_true_lt_length (l : List Bool) (i : Nat) (h : l.getD i false = true) :
    i < l.length := by
  induction l generalizing i with
  | nil => exact absurd h (by simp)
  | cons a l ih =>
    cases i with
    | zero => simp
    | succ i => simpa using ih i (by simpa using h)

/-- Exchanging the contributions of two positions: if the predicates P and Q
agree away from f and t and swap their values there, the counts agree. -/
theorem countP_swap_two (l : List Nat) (P Q : Nat → Bool) (f t : Nat)
    (hfmem : f ∈ l) (htmem : t ∈ l) (hne : f ≠ t) (hnd : l.Nodup)
    (hothers : ∀ x ∈ l, x ≠ f → x ≠ t → P x = Q x)
    (hft : P f = Q t) (htf : P t = Q f) :
    l.countP P = l.countP Q := by
  have ht2 : t ∈ l.erase f := (List.mem_erase_of_ne (Ne.symm hne)).mpr htmem
  have hnd2 : (l.erase f).Nodup := hnd.erase f
  have hperm1 := List.perm_cons_erase hfmem
  have hperm2 := List.perm_cons_erase ht2
  have hrest : ∀ x ∈ (l.erase f).erase t, P x = Q x := by
    intro x hx
    have hx1 : x ∈ l.erase f := List.mem_of_mem_erase hx
    have hxt : x ≠ t := by
      rw [hnd2.erase_eq_filter t] at hx
      simpa using (List.mem_filter.mp hx).2
    have hxf : x ≠ f := by
      rw [hnd.erase_eq_filter f] at hx1
      simpa using (List.mem_filter.mp hx1).2
    exact hothers x (List.mem_of_mem_erase hx1) hxf hxt
  calc l.countP P = (f :: l.erase f).countP P := hperm1.countP_eq P
    _ = (l.erase f).countP P + (if P f then 1 else 0) := by rw [List.countP_cons]
    _ = (t :: (l.erase f).erase t).countP P + (if P f then 1 else 0) := by
        rw [hperm2.countP_eq P]
    _ = ((l.erase f).erase t).countP P + (if P t then 1 else 0)
          + (if P f then 1 else 0) := by rw [List.countP_cons]
    _ = ((l.erase f).erase t).countP Q + (if Q f then 1 else 0)
          + (if Q t then 1 else 0) := by
        rw [countP_congr_mem _ _ _ hrest, hft, htf]
    _ = ((l.erase f).erase t).countP Q + (if Q t then 1 else 0)
          + (if Q f then 1 else 0) := by omega
    _ = (t :: (l.erase f).erase t).countP Q + (if Q f then 1 else 0) := by
        rw [List.countP_cons]
    _ = (l.erase f).countP Q + (if Q f then 1 else 0) := by rw [← hperm2.countP_eq Q]
    _ = (f :: l.erase f).countP Q := by rw [List.countP_cons]
    _ = l.countP Q := by rw [← hperm1.countP_eq Q]

/- ### Pointwise effect of one relocation -/

theorem moveSlot_cap (p : Pool) (f t : Nat) : (moveSlot p f t).cap = p.cap := rfl

theorem moveSlot_mask_length (p : Pool) (f t : Nat) :
    (moveSlot p f t).mask.length = p.mask.length := by
  show ((p.mask.set t (p.mask.getD f false)).set f false).length = _
  simp

theorem moveSlot_mask_other (p : Pool) (f t i : Nat) (hif : i ≠ f) (hit : i ≠ t) :
    (moveSlot p f t).mask.getD i false = p.mask.getD i false := by
  show ((p.mask.set t (p.mask.getD f false)).set f false).getD i false = _
  rw [getD_set_ne _ f i _ _ (Ne.symm hif), getD_set_ne _ t i _ _ (Ne.symm hit)]

theorem moveSlot_mask_t (p : Pool) (f t : Nat) (hft : f ≠ t) (ht : t < p.mask.length) :
    (moveSlot p f t).mask.getD t false = p.mask.getD f false := by
  show ((p.mask.set t (p.mask.getD f false)).set f false).getD t false = _
  rw [getD_set_ne _ f t _ _ hft, getD_set_self _ t _ _ (by simpa using ht)]

theorem moveSlot_mask_f (p : Pool) (f t : Nat) (hf : f < p.mask.length) :
    (moveSlot p f t).mask.getD f false = false := by
  show ((p.mask.set t (p.mask.getD f false)).set f false).getD f false = _
  rw [getD_set_self _ f _ _ (by simpa using hf)]

theorem cols_map_set_other {α : Type} (cols : List (String × List α)) (f t i : Nat)
    (d : α) (hit : i ≠ t) :
    (cols.map (fun c => (c.1, c.2.set t (c.2.getD f d)))).map (fun c => c.2.getD i d)
      = cols.map (fun c => c.2.getD i d) := by
  induction cols with
  | nil => rfl
  | cons c l ih =>
    simp only [List.map_cons]
    rw [getD_set_ne _ t i _ _ (Ne.symm hit), ih]

theorem cols_map_set_self {α : Type} (cols : List (String × List α)) (f t : Nat)
    (d : α) (hlen : ∀ c ∈ cols, t < c.2.length) :
    (cols.map (fun c => (c.1, c.2.set t (c.2.getD f d)))).map (fun c => c.2.getD t d)
      = cols.map (fun c => c.2.getD f d) := by
  induction cols with
  | nil => rfl
  | cons c l ih =>
    simp only [List.map_cons]
    rw [getD_set_self _ t _ _ (hlen c (List.mem_cons_self c l)),
        ih (fun c' hc' => hlen c' (List.mem_cons_of_mem c hc'))]

theorem moveSlot_tupleAt_other (p : Pool) (f t i : Nat) (hit : i ≠ t) :
    tupleAt (moveSlot p f t) i = tupleAt p i := by
  show ((p.realCols.map (fun c => (c.1, c.2.set t (c.2.getD f 0)))).map
          (fun c => c.2.getD i 0),
        (p.intCols.map (fun c => (c.1, c.2.set t (c.2.getD f 0)))).map
          (fun c => c.2.getD i 0))
      = (p.realCols.map (fun c => c.2.getD i 0), p.intCols.map (fun c => c.2.getD i 0))
  rw [cols_map_set_other p.realCols f t i 0 hit, cols_map_set_other p.intCols f t i 0 hit]

theorem moveSlot_tupleAt_t (p : Pool) (f t : Nat)
    (hrl : ∀ c ∈ p.realCols, t < c.2.length) (hil : ∀ c ∈ p.intCols, t < c.2.length) :
    tupleAt (moveSlot p f t) t = tupleAt p f := by
  show ((p.realCols.map (fun c => (c.1, c.2.set t (c.2.getD f 0)))).map
          (fun c => c.2.getD t 0),
        (p.intCols.map (fun c => (c.1, c.2.set t (c.2.getD f 0)))).map
          (fun c => c.2.getD t 0))
      = (p.realCols.map (fun c => c.2.getD f 0), p.intCols.map (fun c => c.2.getD f 0))
  rw [cols_map_set_self p.realCols f t 0 hrl, cols_map_set_self p.intCols f t 0 hil]

/-- One relocation of an active slot onto an inactive slot preserves the
occurrence count of every attribute-value tuple among active slots. -/
theorem tupCount_moveSlot (p : Pool) (f t : Nat) (v : List ℚ × List Int)
    (hf : p.mask.getD f false = true)
    (ht : p.mask.getD t false = false)
    (hfc : f < p.cap) (htc : t < p.cap)
    (hml : p.mask.length = p.cap)
    (hrl : ∀ c ∈ p.realCols, c.2.length = p.cap)
    (hil : ∀ c ∈ p.intCols, c.2.length = p.cap) :
    tupCount (moveSlot p f t) v = tupCount p v := by
  have hne : f ≠ t := by
    intro h
    rw [h, ht] at hf
    exact Bool.noConfusion hf
  have hfl : f < p.mask.length := by omega
  have htl : t < p.mask.length := by omega
  unfold tupCount
  rw [show (moveSlot p f t).cap = p.cap from rfl]
  apply countP_swap_two (List.range p.cap) _ _ f t (List.mem_range.mpr hfc)
    (List.mem_range.mpr htc) hne (List.nodup_range p.cap)
  · intro x _ hxf hxt
    rw [moveSlot_mask_other p f t x hxf hxt, moveSlot_tupleAt_other p f t x hxt]
  · rw [moveSlot_mask_f p f t hfl, ht]
    simp
  · rw [moveSlot_mask_t p f t hne htl,
        moveSlot_tupleAt_t p f t (fun c hc => by rw [hrl c hc]; exact htc)
          (fun c hc => by rw [hil c hc]; exact htc)]

/-- Applying a family of relocations with pairwise distinct sources,
pairwise distinct targets, sources disjoint from targets, active sources
and inactive targets preserves every tuple count. -/
theorem tupCount_applyMoves (ms : List (Nat × Nat)) :
    ∀ (p : Pool) (v : List ℚ × List Int),
      (∀ m ∈ ms, p.mask.getD m.1 false = true ∧ p.mask.getD m.2 false = false
        ∧ m.1 < p.cap ∧ m.2 < p.cap) →
      (ms.map Prod.fst).Nodup →
      (ms.map Prod.snd).Nodup →
      (∀ m ∈ ms, ∀ m' ∈ ms, m.1 ≠ m'.2) →
      p.mask.length = p.cap →
      (∀ c ∈ p.realCols, c.2.length = p.cap) →
      (∀ c ∈ p.intCols, c.2.length = p.cap) →
      tupCount (applyMoves p ms) v = tupCount p v := by
  induction ms with
  | nil => intro p v _ _ _ _ _ _ _; rfl
  | cons m ms ih =>
    intro p v hcond hndf hndt hdisj hml hrl hil
    obtain ⟨hm1, hm2, hm3, hm4⟩ := hcond m (List.mem_cons_self m ms)
    have happ : applyMoves p (m :: ms) = applyMoves (moveSlot p m.1 m.2) ms := rfl
    rw [happ, ← tupCount_moveSlot p m.1 m.2 v hm1 hm2 hm3 hm4 hml hrl hil]
    apply ih
    · intro m' hm'
      obtain ⟨h1', h2', h3', h4'⟩ := hcond m' (List.mem_cons_of_mem m hm')
      have hne1 : m'.1 ≠ m.1 := by
        intro hEq
        exact (List.nodup_cons.mp hndf).1 (hEq ▸ List.mem_map_of_mem Prod.fst hm')
      have hne2 : m'.1 ≠ m.2 :=
        hdisj m' (List.mem_cons_of_mem m hm') m (List.mem_cons_self m ms)
      have hne3 : m'.2 ≠ m.2 := by
        intro hEq
        exact (List.nodup_cons.mp hndt).1 (hEq ▸ List.mem_map_of_mem Prod.snd hm')
      have hne4 : m'.2 ≠ m.1 := fun hEq =>
        hdisj m (List.mem_cons_self m ms) m' (List.mem_cons_of_mem m hm') hEq.symm
      refine ⟨?_, ?_, h3', h4'⟩
      · rw [moveSlot_mask_other p m.1 m.2 m'.1 hne1 hne2]
        exact h1'
      · rw [moveSlot_mask_other p m.1 m.2 m'.2 hne4 hne3]
        exact h2'
    · exact (List.nodup_cons.mp hndf).2
    · exact (List.nodup_cons.mp hndt).2
    · intro a ha b hb
      exact hdisj a (List.mem_cons_of_mem m ha) b (List.mem_cons_of_mem m hb)
    · rw [moveSlot_cap, moveSlot_mask_length]
      exact hml
    · intro c hc
      obtain ⟨c', hc', rfl⟩ := List.mem_map.mp hc
      rw [moveSlot_cap]
      simpa using hrl c' hc'
    · intro c hc
      obtain ⟨c', hc', rfl⟩ := List.mem_map.mp hc
      rw [moveSlot_cap]
      simpa using hil c' hc'

/-- Two lists over a type with decidable equality that give every value the
same number of occurrences are permutations of one another. -/
theorem perm_of_countP_eq {α : Type} [DecidableEq α] :
    ∀ (l₁ l₂ : List α),
      (∀ v, l₁.countP (fun x => decide (x = v)) = l₂.countP (fun x => decide (x = v))) →
      l₁.Perm l₂ := by
  intro l₁
  induction l₁ with
  | nil =>
    intro l₂ h
    cases l₂ with
    | nil => exact List.Perm.refl []
    | cons b l₂ =>
      have hb := h b
      rw [List.countP_cons] at hb
      simp at hb
  | cons a l₁ ih =>
    intro l₂ h
    have ha : a ∈ l₂ := by
      by_contra hmem
      have hcount := h a
      rw [List.countP_cons] at hcount
      have hz : l₂.countP (fun x => decide (x = a)) = 0 := by
        rw [List.countP_eq_zero]
        intro x hx
        simp only [decide_eq_true_eq]
        intro hxa
        exact hmem (hxa ▸ hx)
      rw [hz] at hcount
      simp at hcount
    have hperm2 : l₂.Perm (a :: l₂.erase a) := List.perm_cons_erase ha
    have hrest : ∀ v, l₁.countP (fun x => decide (x = v))
        = (l₂.erase a).countP (fun x => decide (x = v)) := by
      intro v
      have hv := h v
      rw [hperm2.countP_eq, List.countP_cons, List.countP_cons] at hv
      omega
    exact ((ih (l₂.erase a) hrest).cons a).trans hperm2.symm

/-- The list underlying `activeTuples` counts a tuple exactly `tupCount`
often. -/
theorem countP_activeTuples_list (p : Pool) (v : List ℚ × List Int) :
    ((((List.range p.cap).filter (fun i => p.mask.getD i false))).map
        (tupleAt p)).countP (fun x => decide (x = v))
      = tupCount p v := by
  rw [List.countP_map, List.countP_filter]
  apply countP_congr_mem
  intro x _
  by_cases hm : p.mask.getD x false <;> by_cases htv : tupleAt p x = v <;>
    simp [hm, htv, Function.comp]

/- ### Claim C2 -/

/-- Claim C2: on a well-formed pool (arrays of length `cap`, free list
holding only in-range inactive indices without duplicates,
`max_active_index < cap`), Defrag with `num_active > 0` ends with
`max_active_index = num_active - 1`, relocates only onto slots taken from
the free list, and preserves the multiset of attribute-value tuples over
the active slots; with `num_active = 0` it leaves the pool unchanged. -/
theorem defrag_spec (p : Pool)
    (hml : p.mask.length = p.cap)
    (hrl : ∀ c ∈ p.realCols, c.2.length = p.cap)
    (hil : ∀ c ∈ p.intCols, c.2.length = p.cap)
    (hfree : ∀ j ∈ p.free, j < p.cap ∧ p.mask.getD j false = false)
    (hfnd : p.free.Nodup)
    (hmax : p.maxActiveIndex < (p.cap : Int)) :
    (p.numActive = 0 → defrag p = p)
    ∧ (0 < p.numActive →
        (defrag p).maxActiveIndex = p.numActive - 1
        ∧ (∀ m ∈ defragMoves p, m.2 ∈ p.free)
        ∧ activeTuples (defrag p) = activeTuples p) := by
  obtain ⟨hS1, hS2, hS3⟩ :=
    selectMoves_spec p.mask p.numActive (defragFuel p) p.maxActiveIndex p.free
  have htos : ∀ m ∈ defragMoves p, m.2 ∈ p.free := by
    intro m hm
    have h1 : m.2 ∈ (defragMoves p).map Prod.snd := List.mem_map_of_mem Prod.snd hm
    rw [show (defragMoves p).map Prod.snd = p.free.take (defragMoves p).length
        from hS3] at h1
    exact List.take_subset _ _ h1
  constructor
  · intro h
    unfold defrag
    rw [if_pos h]
  · intro h
    have hne0 : ¬ p.numActive = 0 := by omega
    refine ⟨?_, htos, ?_⟩
    · unfold defrag
      rw [if_neg hne0]
    · have hcnt : ∀ v, tupCount (applyMoves p (defragMoves p)) v = tupCount p v := by
        intro v
        apply tupCount_applyMoves
        · intro m hm
          obtain ⟨ha, hb, _⟩ := hS1 m hm
          obtain ⟨hd, he⟩ := hfree m.2 (htos m hm)
          exact ⟨ha, he, by omega, hd⟩
        · exact hS2
        · rw [show (defragMoves p).map Prod.snd = p.free.take (defragMoves p).length
              from hS3]
          exact List.Nodup.sublist (List.take_sublist _ _) hfnd
        · intro m hm m' hm'
          obtain ⟨ha, _, _⟩ := hS1 m hm
          obtain ⟨_, he⟩ := hfree m'.2 (htos m' hm')
          intro hEq
          rw [hEq] at ha
          rw [ha] at he
          exact Bool.noConfusion he
        · exact hml
        · exact hrl
        · exact hil
      unfold defrag
      rw [if_neg hne0]
      show activeTuples (applyMoves p (defragMoves p)) = activeTuples p
      unfold activeTuples
      rw [Multiset.coe_eq_coe]
      apply perm_of_countP_eq
      intro v
      rw [countP_activeTuples_list, countP_activeTuples_list]
      exact hcnt v

/-- A concrete well-formed pool for the C2 witness: capacity 2, the single
active particle sits in slot 1 with x-value 2, slot 0 free. -/
def c2pool : Pool :=
  ⟨2, [false, true], [false, false], 1, 1, [0], [0, 0],
   [("x", [1, 2]), ("y", [0, 0]), ("z", [0, 0])], []⟩

/-- Witness for C2 at `c2pool`: Defrag moves the particle from slot 1 to
slot 0 and the active-tuple multiset is unchanged. -/
theorem defrag_spec_witness :
    (defrag c2pool).maxActiveIndex = c2pool.numActive - 1
    ∧ activeTuples (defrag c2pool) = activeTuples c2pool := by
  have h := (defrag_spec c2pool (by decide) (by decide) (by decide) (by decide)
    (by decide) (by decide)).2 (by decide)
  exact ⟨h.1, h.2.2⟩

/- ### Transport: payload serialization (swarm.cpp lines 735-776, 824-892) -/

/-- LoadBuffers_ serializes one particle: all Real attribute values in
registration order, then every int attribute value widened with
static_cast to the Real representation. -/
def packParticle (reals : List ℚ) (ints : List Int) : List ℚ :=
  reals ++ ints.map (fun n => (n : ℚ))

/-- static_cast from the Real representation back to int: truncation toward
zero. -/
def truncToInt (q : ℚ) : Int := if 0 ≤ q then ⌊q⌋ else ⌈q⌉

/-- The per-axis periodic correction of UnloadBuffers_ (swarm.cpp lines
872-889): if the coordinate fell below the global minimum the code sets
`x = max - (min - x)`, and afterwards, if it exceeds the global maximum,
`x = min + (x - max)`; both tests run in sequence on the updated value. -/
def correct1 (lo hi x : ℚ) : ℚ :=
  if (if x < lo then hi - (lo - x) else x) > hi then
    lo + ((if x < lo then hi - (lo - x) else x) - hi)
  else
    if x < lo then hi - (lo - x) else x

/-- The periodic correction applied to the first three Real attributes,
which are the coordinates "x", "y", "z" enrolled first by the constructor
(so `rmap["x"].first = 0` and so on). -/
def applyCorrections (xmin xmax ymin ymax zmin zmax : ℚ) (reals : List ℚ) : List ℚ :=
  ((reals.set 0 (correct1 xmin xmax (reals.getD 0 0))).set 1
      (correct1 ymin ymax ((reals.set 0 (correct1 xmin xmax (reals.getD 0 0))).getD 1 0))).set 2
    (correct1 zmin zmax
      (((reals.set 0 (correct1 xmin xmax (reals.getD 0 0))).set 1
          (correct1 ymin ymax ((reals.set 0 (correct1 xmin xmax (reals.getD 0 0))).getD 1 0))).getD 2 0))

/-- UnloadBuffers_ deserializes one particle from the receive buffer: the
first `nreal` Real values in registration order, then `nint` int values
truncated back from the Real representation, and finally the periodic
coordinate correction on the coordinates. -/
def unpackParticle (nreal nint : Nat) (xmin xmax ymin ymax zmin zmax : ℚ)
    (buf : List ℚ) : List ℚ × List Int :=
  (applyCorrections xmin xmax ymin ymax zmin zmax
      ((List.range nreal).map fun i => buf.getD i 0),
   (List.range nint).map fun i => truncToInt (buf.getD (nreal + i) 0))

/- ### Round-trip lemmas -/

theorem map_congr_mem {α β : Type} (l : List α) (f g : α → β)
    (h : ∀ a ∈ l, f a = g a) : l.map f = l.map g := by
  induction l with
  | nil => rfl
  | cons a l ih =>
    rw [List.map_cons, List.map_cons, h a (List.mem_cons_self a l),
        ih (fun x hx => h x (List.mem_cons_of_mem a hx))]

theorem range_map_getD {α : Type} (l : List α) (d : α) (extra : List α) :
    (List.range l.length).map (fun i => (l ++ extra).getD i d) = l := by
  induction l with
  | nil => rfl
  | cons a l ih =>
    rw [List.length_cons, List.range_succ_eq_map, List.map_cons, List.map_map]
    show a :: (List.range l.length).map (fun i => (l ++ extra).getD i d) = a :: l
    rw [ih]

theorem getD_append_right {α : Type} (l m : List α) (i : Nat) (d : α) :
    (l ++ m).getD (l.length + i) d = m.getD i d := by
  induction l with
  | nil => simp
  | cons a l ih =>
    simp only [List.length_cons, List.cons_append]
    rw [Nat.add_right_comm]
    simpa using ih

theorem truncToInt_intCast (n : Int) : truncToInt ((n : ℚ)) = n := by
  unfold truncToInt
  split
  · exact Int.floor_intCast n
  · exact Int.ceil_intCast n

theorem range_map_trunc_cast (ints : List Int) :
    (List.range ints.length).map
        (fun i => truncToInt ((ints.map (fun n => (n : ℚ))).getD i 0)) = ints := by
  induction ints with
  | nil => rfl
  | cons n ints ih =>
    rw [List.length_cons, List.range_succ_eq_map, List.map_cons, List.map_map]
    show truncToInt ((n : ℚ))
        :: (List.range ints.length).map
            (fun i => truncToInt ((ints.map (fun n => (n : ℚ))).getD i 0))
      = n :: ints
    rw [truncToInt_intCast, ih]

/- ### Claim C5 -/

/-- Claim C5: packing a particle (Real attributes in registration order,
then int attributes widened to Real) and unpacking it on the receiving
side returns every attribute value unchanged, except that each coordinate
is passed through the periodic correction; the correction leaves a
coordinate inside [lo, hi] unchanged, adds exactly the domain extent
`hi - lo` when the coordinate is below `lo`, and subtracts exactly the
extent when it is above `hi` (given lo ≤ hi). -/
theorem loadUnload_roundtrip (x y z : ℚ) (rest : List ℚ) (ints : List Int)
    (xmin xmax ymin ymax zmin zmax lo hi w : ℚ) :
    unpackParticle (x :: y :: z :: rest).length ints.length xmin xmax ymin ymax zmin zmax
        (packParticle (x :: y :: z :: rest) ints)
      = (correct1 xmin xmax x :: correct1 ymin ymax y :: correct1 zmin zmax z :: rest,
         ints)
    ∧ (¬ w < lo → ¬ hi < w → correct1 lo hi w = w)
    ∧ (w < lo → correct1 lo hi w = w + (hi - lo))
    ∧ (lo ≤ hi → hi < w → correct1 lo hi w = w - (hi - lo)) := by
  refine ⟨?_, ?_, ?_, ?_⟩
  · unfold unpackParticle packParticle
    rw [range_map_getD (x :: y :: z :: rest) 0 (ints.map (fun n => (n : ℚ)))]
    rw [map_congr_mem _ _
        (fun i => truncToInt ((ints.map (fun n => (n : ℚ))).getD i 0))
        (fun i _ => by rw [getD_append_right])]
    rw [range_map_trunc_cast]
    rfl
  · intro h1 h2
    unfold correct1
    rw [if_neg h1, if_neg h2]
  · intro h1
    have hng : ¬ (hi - (lo - w) > hi) := by
      intro hgt
      linarith
    unfold correct1
    rw [if_pos h1, if_neg hng]
    ring
  · intro h1 h2
    have hnl : ¬ w < lo := by linarith
    have hg : (if w < lo then hi - (lo - w) else w) > hi := by
      rw [if_neg hnl]
      exact h2
    unfold correct1
    rw [if_pos hg, if_neg hnl]
    ring

/-- Witness for C5, matching the spec's wrap scenario on the x axis of the
domain [0, 10]: a particle that crossed the upper boundary arrives in the
neighbor frame at -0.01 and is corrected to 9.99 = 999/100. -/
theorem loadUnload_roundtrip_witness :
    unpackParticle 3 1 0 10 0 1 0 1 (packParticle [-1/100, 1/2, 1/2] [7])
        = (correct1 0 10 (-1/100) :: correct1 0 1 (1/2) :: correct1 0 1 (1/2) :: [], [7])
    ∧ correct1 0 10 ((-1 : ℚ)/100) = -1/100 + (10 - 0)
    ∧ correct1 0 10 ((-1 : ℚ)/100) = 999/100 := by
  have h := loadUnload_roundtrip (-1/100) (1/2) (1/2) [] [7] 0 10 0 1 0 1 0 10 (-1/100)
  refine ⟨h.1, h.2.2.1 (by norm_num), ?_⟩
  rw [h.2.2.1 (by norm_num)]
  norm_num

/- ### Boundary channels (bvals_swarm.cpp, swarm.cpp lines 790-804, 894-917) -/

/-- BoundaryStatus values used by the swarm channels. -/
inductive BStatus where
  | waiting : BStatus
  | arrived : BStatus
  | completed : BStatus
deriving DecidableEq, Inhabited

/-- The receive-side view of a channel used by CountReceivedParticles_:
its completion flag and the received length `recv_size` (in Real units, the
units in which the code also measures `particle_size`). -/
structure RecvChannel where
  flag : BStatus
  recvSize : Nat
deriving DecidableEq, Inhabited

/-- Swarm::CountReceivedParticles_ (swarm.cpp lines 790-804): for each
channel whose status is arrived, the received particle count is
`recv_size / particle_size`, with the PARTHENON_DEBUG_REQUIRE abort
(modelled as `none`) when the division is not exact; other channels
contribute a count of zero. -/
def countReceivedList (psize : Nat) : List RecvChannel → Option (List Nat)
  | [] => some []
  | c :: rest =>
    if c.flag = .arrived then
      if psize ∣ c.recvSize then
        (countReceivedList psize rest).map (fun l => c.recvSize / psize :: l)
      else none
    else
      (countReceivedList psize rest).map (fun l => 0 :: l)

/-- `total_received_particles_`: the sum of the per-channel counts. -/
def totalReceived (psize : Nat) (chans : List RecvChannel) : Option Nat :=
  (countReceivedList psize chans).map List.sum

/- ### Claim C7 -/

/-- Claim C7: the count step fails fatally exactly when some arrived
channel's received length is not divisible by the payload width; on
success each arrived channel contributes `recv_size / particle_size`,
every other channel contributes zero, and the total is the sum of the
per-channel counts. -/
theorem countReceived_spec (psize : Nat) (chans : List RecvChannel) :
    (countReceivedList psize chans = none ↔
      ∃ c ∈ chans, c.flag = .arrived ∧ ¬ psize ∣ c.recvSize)
    ∧ (∀ counts, countReceivedList psize chans = some counts →
        counts.length = chans.length
        ∧ (∀ i, i < chans.length →
            counts.getD i 0 = (if (chans.getD i default).flag = .arrived
              then (chans.getD i default).recvSize / psize else 0))
        ∧ totalReceived psize chans = some counts.sum) := by
  induction chans with
  | nil =>
    constructor
    · constructor
      · intro h
        exact absurd h (by simp [countReceivedList])
      · rintro ⟨c, hc, -⟩
        exact absurd hc (List.not_mem_nil c)
    · intro counts h
      have hc : counts = [] := by
        have : (some [] : Option (List Nat)) = some counts := h
        cases this
        rfl
      subst hc
      exact ⟨rfl, fun i hi => absurd hi (by simp), by simp [totalReceived, countReceivedList]⟩
  | cons c rest ih =>
    by_cases harr : c.flag = .arrived
    · by_cases hdvd : psize ∣ c.recvSize
      · have hstep : countReceivedList psize (c :: rest)
            = (countReceivedList psize rest).map (fun l => c.recvSize / psize :: l) := by
          simp only [countReceivedList]
          rw [if_pos harr, if_pos hdvd]
        constructor
        · rw [hstep]
          constructor
          · intro h
            cases hrec : countReceivedList psize rest with
            | none =>
              obtain ⟨c', hc', h1, h2⟩ := ih.1.mp hrec
              exact ⟨c', List.mem_cons_of_mem c hc', h1, h2⟩
            | some l =>
              rw [hrec] at h
              exact absurd h (by simp)
          · rintro ⟨c', hc', h1, h2⟩
            rcases List.mem_cons.mp hc' with rfl | hc'
            · exact absurd hdvd h2
            · rw [ih.1.mpr ⟨c', hc', h1, h2⟩]
              rfl
        · intro counts h
          rw [hstep] at h
          cases hrec : countReceivedList psize rest with
          | none =>
            rw [hrec] at h
            exact absurd h (by simp)
          | some l =>
            rw [hrec] at h
            have hcounts : counts = c.recvSize / psize :: l := by
              simp at h
              exact h.symm
            subst hcounts
            obtain ⟨hl1, hl2, hl3⟩ := ih.2 l hrec
            refine ⟨by simp [hl1], ?_, ?_⟩
            · intro i hi
              cases i with
              | zero => simp [harr]
              | succ i =>
                have := hl2 i (by simpa using hi)
                simpa using this
            · unfold totalReceived at hl3 ⊢
              rw [hstep, hrec]
              rw [hrec] at hl3
              simp at hl3
              simp [hl3]
      · have hstep : countReceivedList psize (c :: rest) = none := by
          unfold countReceivedList
          rw [if_pos harr, if_neg hdvd]
        constructor
        · rw [hstep]
          constructor
          · intro _
            exact ⟨c, List.mem_cons_self c rest, harr, hdvd⟩
          · intro _
            rfl
        · intro counts h
          rw [hstep] at h
          exact absurd h (by simp)
    · have hstep : countReceivedList psize (c :: rest)
          = (countReceivedList psize rest).map (fun l => 0 :: l) := by
        simp only [countReceivedList]
        rw [if_neg harr]
      constructor
      · rw [hstep]
        constructor
        · intro h
          cases hrec : countReceivedList psize rest with
          | none =>
            obtain ⟨c', hc', h1, h2⟩ := ih.1.mp hrec
            exact ⟨c', List.mem_cons_of_mem c hc', h1, h2⟩
          | some l =>
            rw [hrec] at h
            exact absurd h (by simp)
        · rintro ⟨c', hc', h1, h2⟩
          rcases List.mem_cons.mp hc' with rfl | hc'
          · exact absurd h1 harr
          · rw [ih.1.mpr ⟨c', hc', h1, h2⟩]
            rfl
      · intro counts h
        rw [hstep] at h
        cases hrec : countReceivedList psize rest with
        | none =>
          rw [hrec] at h
          exact absurd h (by simp)
        | some l =>
          rw [hrec] at h
          have hcounts : counts = 0 :: l := by
            simp at h
            exact h.symm
          subst hcounts
          obtain ⟨hl1, hl2, hl3⟩ := ih.2 l hrec
          refine ⟨by simp [hl1], ?_, ?_⟩
          · intro i hi
            cases i with
            | zero => simp [harr]
            | succ i =>
              have := hl2 i (by simpa using hi)
              simpa using this
          · unfold totalReceived at hl3 ⊢
            rw [hstep, hrec]
            rw [hrec] at hl3
            simp at hl3
            simp [hl3]

/-- Witness for C7: particle size 2; an arrived channel of odd length is
fatal, and [arrived of 4 Reals, waiting of anything] counts as [2, 0]. -/
theorem countReceived_spec_witness :
    countReceivedList 2 [⟨.arrived, 4⟩, ⟨.arrived, 3⟩] = none
    ∧ totalReceived 2 [⟨.arrived, 4⟩, ⟨.waiting, 7⟩] = some ([2, 0].sum) := by
  refine ⟨(countReceived_spec 2 _).1.mpr ⟨⟨.arrived, 3⟩, by decide, by decide, by decide⟩, ?_⟩
  exact ((countReceived_spec 2 _).2 [2, 0] (by decide)).2.2

/- ### Local send, receive transitions (bvals_swarm.cpp 95-138, swarm.cpp 894-917) -/

/-- The receive side of one channel as seen by BoundarySwarm::Send for a
co-located neighbor: flag, receive buffer and `recv_size`. -/
structure SwarmChannel where
  flag : BStatus
  recvBuf : List ℚ
  recvSize : Nat
deriving DecidableEq

/-- Overwriting the front of the target buffer with the send buffer, as the
deep copy does when the target is already large enough. -/
def copyIn (src dst : List ℚ) : List ℚ := src ++ dst.drop src.length

/-- The co-located branch of BoundarySwarm::Send (bvals_swarm.cpp lines
114-136) acting on the target channel: with a non-empty payload, grow the
target's receive buffer when it is smaller than the send buffer, deep-copy
the send buffer into it, set `recv_size` and flag the target `arrived`;
with an empty payload set `recv_size = 0` and flag the target `completed`
directly. -/
def localSendOne (sendBuf : List ℚ) (sendSize : Nat) (target : SwarmChannel) :
    SwarmChannel :=
  if 0 < sendSize then
    { flag := .arrived
      recvBuf := if target.recvBuf.length < sendBuf.length then sendBuf
                 else copyIn sendBuf target.recvBuf
      recvSize := sendSize }
  else
    { target with flag := .completed, recvSize := 0 }

/-- The completion pass of Swarm::Receive (swarm.cpp lines 905-914): every
channel found `arrived` is marked `completed`. -/
def receiveFlagsUpdate (flags : List BStatus) : List BStatus :=
  flags.map (fun f => if f = .arrived then .completed else f)

/-- The return value of Swarm::Receive: `all_boundaries_received` starts
true and is cleared by any channel still `waiting`. -/
def allReceived (flags : List BStatus) : Bool :=
  flags.all (fun f => decide (f ≠ .waiting))

/- ### Claim C8 -/

/-- Claim C8: a co-located Send with a non-empty payload copies the send
buffer into the target's receive buffer (growing it when undersized, so
afterwards the buffer holds the payload as a prefix and is at least as
long), records the payload length and sets the target's flag to arrived;
with an empty payload the flag goes directly to completed.  The receive
step turns every arrived channel into completed and reports the cycle
complete exactly when no channel is still waiting. -/
theorem channel_cycle_spec :
    (∀ (sb : List ℚ) (ss : Nat) (t : SwarmChannel), 0 < ss →
        (localSendOne sb ss t).flag = .arrived
        ∧ (localSendOne sb ss t).recvSize = ss
        ∧ (localSendOne sb ss t).recvBuf.take sb.length = sb
        ∧ sb.length ≤ (localSendOne sb ss t).recvBuf.length)
    ∧ (∀ (sb : List ℚ) (t : SwarmChannel),
        (localSendOne sb 0 t).flag = .completed ∧ (localSendOne sb 0 t).recvSize = 0)
    ∧ (∀ (flags : List BStatus) (i : Nat), flags.getD i .completed = .arrived →
        (receiveFlagsUpdate flags).getD i .completed = .completed)
    ∧ (∀ flags : List BStatus, allReceived flags = true ↔ ∀ f ∈ flags, f ≠ .waiting) := by
  refine ⟨?_, ?_, ?_, ?_⟩
  · intro sb ss t hss
    have hflag : (localSendOne sb ss t).flag = .arrived := by
      unfold localSendOne
      rw [if_pos hss]
    have hsize : (localSendOne sb ss t).recvSize = ss := by
      unfold localSendOne
      rw [if_pos hss]
    have hbuf : (localSendOne sb ss t).recvBuf
        = if t.recvBuf.length < sb.length then sb else copyIn sb t.recvBuf := by
      unfold localSendOne
      rw [if_pos hss]
    refine ⟨hflag, hsize, ?_, ?_⟩
    · rw [hbuf]
      by_cases hlen : t.recvBuf.length < sb.length
      · rw [if_pos hlen, List.take_length]
      · rw [if_neg hlen]
        exact List.take_left sb (t.recvBuf.drop sb.length)
    · rw [hbuf]
      by_cases hlen : t.recvBuf.length < sb.length
      · rw [if_pos hlen]
      · rw [if_neg hlen]
        unfold copyIn
        rw [List.length_append]
        omega
  · intro sb t
    constructor <;>
      · unfold localSendOne
        rw [if_neg (by omega)]
  · intro flags i h
    have hfix : ∀ (fl : List BStatus) (j : Nat),
        (fl.map (fun f => if f = BStatus.arrived then BStatus.completed
            else f)).getD j .completed
          = (fun f => if f = BStatus.arrived then BStatus.completed else f)
              (fl.getD j .completed) := by
      intro fl
      induction fl with
      | nil => intro j; rfl
      | cons a l ih =>
        intro j
        cases j with
        | zero => rfl
        | succ j => simpa using ih j
    unfold receiveFlagsUpdate
    rw [hfix flags i, h]
    rfl
  · intro flags
    simp [allReceived, List.all_eq_true]

/-- Witness for C8 at concrete channels. -/
theorem channel_cycle_spec_witness :
    (localSendOne [1, 2] 2 ⟨.waiting, [], 0⟩).flag = .arrived
    ∧ (localSendOne [1, 2] 0 ⟨.waiting, [], 0⟩).flag = .completed
    ∧ (receiveFlagsUpdate [.arrived, .waiting]).getD 0 .completed = .completed
    ∧ (allReceived [.completed, .completed] = true ↔
        ∀ f ∈ [BStatus.completed, BStatus.completed], f ≠ .waiting) := by
  refine ⟨(channel_cycle_spec.1 [1, 2] 2 ⟨.waiting, [], 0⟩ (by decide)).1,
    (channel_cycle_spec.2.1 [1, 2] ⟨.waiting, [], 0⟩).1,
    channel_cycle_spec.2.2.1 [.arrived, .waiting] 0 (by decide),
    channel_cycle_spec.2.2.2 [.completed, .completed]⟩

/- ### Claim C9 -/

/-- The send side of a remote channel: whether a non-blocking send request
is still outstanding (`req_send[...] != MPI_REQUEST_NULL`) and the payload
last handed to the transport. -/
structure RemoteChannel where
  sendPending : Bool
  sendBuf : List ℚ

/-- The remote branch of BoundarySwarm::Send (bvals_swarm.cpp lines
102-113): PARTHENON_REQUIRE fails fatally (`none`) when the previous
non-blocking send on this channel has not completed; otherwise MPI_Isend
is issued and the request becomes outstanding.  No queueing or retry path
exists. -/
def remoteSend (c : RemoteChannel) (payload : List ℚ) : Option RemoteChannel :=
  if c.sendPending then none
  else some { sendPending := true, sendBuf := payload }

/-- Claim C9: issuing a Send on a remote channel whose previous send has
not completed is fatal and produces no state in which the message is
queued, deferred or retried; on an idle channel the send is issued and the
request becomes outstanding. -/
theorem remoteSend_spec (c : RemoteChannel) (payload : List ℚ) :
    (c.sendPending = true → remoteSend c payload = none)
    ∧ (c.sendPending = false →
        remoteSend c payload = some { sendPending := true, sendBuf := payload }) := by
  constructor <;> intro h <;> simp [remoteSend, h]

/-- Witness for C9: a busy channel aborts; an idle one issues the send. -/
theorem remoteSend_spec_witness :
    remoteSend ⟨true, []⟩ [5] = none
    ∧ remoteSend ⟨false, []⟩ [5] = some ⟨true, [5]⟩ :=
  ⟨(remoteSend_spec ⟨true, []⟩ [5]).1 rfl, (remoteSend_spec ⟨false, []⟩ [5]).2 rfl⟩
